import Mathlib

/-!
# Verification of the anycli retrieval / correction-learning subsystem

A shallow embedding, in Lean 4, of the retrieval-augmented prompt
enhancement and correction-learning core of the `anycli` repository.

Modelling conventions, used throughout:

* Rust `String` / `&str` values are modelled either as `String` or as
  `List Char`; all inputs of interest are ASCII, for which Rust's
  `to_lowercase` / `split_whitespace` / `len` agree with the character-wise
  models below (`len` counts UTF-8 bytes in Rust; for ASCII text bytes and
  characters coincide).
* `f32` arithmetic is modelled by exact arithmetic over `ℚ` (and `ℝ` where
  square roots appear).  `matches as f32 / len as f32` is modelled by
  `mkRat matches len`, which denotes the same rational number.
* `std::collections::HashMap` is modelled by an association list together
  with the insert-replaces-existing-binding operation (`assocPut`).  Where
  code iterates over a `HashMap` (whose iteration order is unspecified),
  the model takes the iteration order as an explicit list, so theorems
  quantify over every admissible order.
* External crates (`md5`, `serde_json`, `url`, `regex`) are not repository
  code; calls into them are modelled by explicit function parameters of the
  definitions that use them.  No theorem below depends on properties of
  those parameters beyond their being functions.
-/

namespace AnyCli

/-! ## Shared string primitives (Rust `str` operations, ASCII model) -/

/-- Rust `str::to_lowercase`, character-wise (ASCII model). -/
def lowerL (s : List Char) : List Char :=
  s.map Char.toLower

/-- One word-boundary pass of Rust `str::split_whitespace`: `cur` is the
reversed current word. -/
def splitWsGo : List Char → List Char → List (List Char)
  | [], cur => if cur = [] then [] else [cur.reverse]
  | c :: rest, cur =>
    if c.isWhitespace then
      if cur = [] then splitWsGo rest [] else cur.reverse :: splitWsGo rest []
    else
      splitWsGo rest (c :: cur)

/-- Rust `str::split_whitespace().collect::<Vec<_>>()`: maximal runs of
non-whitespace characters, in order, no empty items. -/
def splitWs (s : List Char) : List (List Char) :=
  splitWsGo s []

/-- Whether `needle` is a prefix of `hay`. -/
def headMatch : List Char → List Char → Bool
  | [], _ => true
  | _ :: _, [] => false
  | a :: as_, b :: bs => a = b && headMatch as_ bs

/-- Rust `str::contains(needle)`: substring containment. -/
def containsSub (hay needle : List Char) : Bool :=
  if headMatch needle hay then true
  else
    match hay with
    | [] => false
    | _ :: rest => containsSub rest needle

/-- Version of `containsSub` on `String`s (used by the parts of the code that
we model directly on `String`). -/
def containsS (hay needle : String) : Bool :=
  containsSub hay.toList needle.toList

/-- Rust `str::trim` on the left only: drop leading whitespace. -/
def dropWs (s : List Char) : List Char :=
  s.dropWhile Char.isWhitespace

/-- Rust `str::trim`: drop leading and trailing whitespace. -/
def trimL (s : List Char) : List Char :=
  ((dropWs s).reverse.dropWhile Char.isWhitespace).reverse

/-! ## Association-list model of `HashMap` insert/get -/

/-- Model of `HashMap::insert`: replace the existing binding of `k`, if any,
otherwise append a fresh binding. -/
def assocPut {K V : Type} [DecidableEq K] : List (K × V) → K → V → List (K × V)
  | [], k, v => [(k, v)]
  | (k', v') :: rest, k, v =>
    if k' = k then (k, v) :: rest else (k', v') :: assocPut rest k v

/-- Model of `HashMap::get`. -/
def assocGet {K V : Type} [DecidableEq K] : List (K × V) → K → Option V
  | [], _ => none
  | (k', v) :: rest, k => if k' = k then some v else assocGet rest k

/-! ## cuc-cli correction learning (`crates/cuc-cli/src/command_learning.rs`)

The record type `CommandLearning` is declared in `cuc-core` (types module,
not part of the snapshot); its fields are read off the construction site in
`CommandLearningEngine::add_correction`: `query`, `correct_command`,
`error_pattern`, `timestamp`. -/

/-- Model of `cuc_core::CommandLearning`. -/
structure CommandLearning where
  query : List Char
  correct_command : List Char
  error_pattern : Option (List Char)
  timestamp : Int
deriving DecidableEq

/-- The engine's `corrections: HashMap<String, CommandLearning>`, as an
association list keyed by the query string. -/
def CorrMap : Type := List (List Char × CommandLearning)

/-- Model of `CommandLearningEngine::add_correction(query, correct_command,
error_pattern)`: build the record (with the ambient clock passed in as
`ts`) and `insert` it keyed by `query`.  The subsequent `save()` call
writes the whole map to disk and does not change the in-memory map. -/
def add_correction (m : CorrMap) (q c : List Char) (ep : Option (List Char))
    (ts : Int) : CorrMap :=
  assocPut m q ⟨q, c, ep, ts⟩

/-- Model of `CommandLearningEngine::get_learned_command(query)`:
`corrections.get(query)`. -/
def get_learned_command (m : CorrMap) (q : List Char) : Option CommandLearning :=
  assocGet m q

/-- Model of `CommandLearningEngine::calculate_similarity(query1, query2)` (both
arguments already lowercased by the caller): the number of words of
`query1` that occur among the words of `query2`, divided by the word count
of `query1`; `0.0` for a word-less `query1`. -/
def calculate_similarity (q1 q2 : List Char) : ℚ :=
  let words1 := splitWs q1
  let words2 := splitWs q2
  let matchCount := (words1.filter (fun w => words2.contains w)).length
  if words1 = [] then 0 else mkRat matchCount words1.length

/-- Model of `CommandLearningEngine::find_similar(query, threshold)`: score every
stored record against the lowercased query, keep scores `≥ threshold`,
stable-sort descending by score, return the records.  `corrs` is the
iteration order of `corrections.values()`; Rust's `sort_by` is a stable
sort, modelled by `List.insertionSort` (stable sorts of a list under a
total preorder coincide). -/
def find_similar (corrs : List CommandLearning) (q : List Char) (t : ℚ) :
    List CommandLearning :=
  let ql := lowerL q
  let scored := corrs.map (fun l => (l, calculate_similarity ql (lowerL l.query)))
  let kept := scored.filter (fun p => t ≤ p.2)
  (List.insertionSort (fun a b => b.2 ≤ a.2) kept).map Prod.fst

/-! ## `src/command_learning.rs`: error analysis and engine construction -/

/-- Model of `CorrectionType` (the `src/command_learning.rs` variant). -/
inductive CorrectionType where
  | CommandNotFound
  | InvalidSyntax
  | MissingPlugin
  | WrongSubcommand
  | ParameterError
  | AuthenticationError
  | NetworkError
  | ResourceNotFound
  | PermissionDenied
  | Other (msg : List Char)
  | CommandFix
deriving DecidableEq

/-- Model of `CommandLearningEngine::analyze_error(error_message)`: lowercase the
message, then apply the fixed substring rules in priority order; an input
matching no rule yields `Other` carrying the raw (un-lowercased) message. -/
def analyze_error (msg : List Char) : CorrectionType :=
  let e := lowerL msg
  if containsSub e "not a registered command".toList
      || containsSub e "command not found".toList then
    .CommandNotFound
  else if containsSub e "invalid syntax".toList
      || containsSub e "usage:".toList then
    .InvalidSyntax
  else if containsSub e "plugin".toList
      && containsSub e "not installed".toList then
    .MissingPlugin
  else if containsSub e "subcommand".toList then
    .WrongSubcommand
  else if containsSub e "parameter".toList
      || containsSub e "argument".toList then
    .ParameterError
  else
    .Other msg

/-- Model of `RetryStrategyType`. -/
inductive RetryStrategyType where
  | ImmediateRetry
  | ExponentialBackoff
  | LinearBackoff
  | ContextualRetry
  | NoRetry
deriving DecidableEq

/-- Model of `RetryStrategy` (`f32` success rate as `ℚ`). -/
structure RetryStrategy where
  strategy_type : RetryStrategyType
  max_attempts : ℕ
  delay_ms : ℕ
  success_rate : ℚ
deriving DecidableEq

/-- Model of `CommandCorrection` (`src/command_learning.rs`). -/
structure CommandCorrection where
  original_query : List Char
  incorrect_command : List Char
  correct_command : List Char
  error_message : Option (List Char)
  correction_type : CorrectionType
  timestamp : Int
  confidence_score : ℚ
  success_rate : ℚ
  usage_count : ℕ
deriving DecidableEq

/-- Model of `FailurePattern`. -/
structure FailurePattern where
  pattern_id : String
  error_regex : String
  common_causes : List String
  suggested_fixes : List String
  confidence : ℚ
  occurrence_count : ℕ
deriving DecidableEq

/-- Model of `LearningDatabase`.  The two `HashMap`s are modelled as association
lists; `DateTime<Utc>` as an integer timestamp. -/
structure LearningDatabase where
  corrections : List CommandCorrection
  patterns : List (String × List String)
  failure_patterns : List FailurePattern
  retry_strategies : List (CorrectionType × RetryStrategy)
  success_metrics : List (String × ℚ)
  last_updated : Int

/-- Model of `LearningDatabase::new()` (`now` is the ambient clock). -/
def LearningDatabase.new (now : Int) : LearningDatabase :=
  { corrections := []
    patterns := []
    failure_patterns := []
    retry_strategies := []
    success_metrics := []
    last_updated := now }

/-- Model of `CommandLearningEngine` (`src/command_learning.rs`).  The compiled
`Vec<Regex>` is modelled by the list of pattern strings (every pattern in
`initialize_error_patterns` is a valid regex, so `filter_map(ok)` keeps
them all). -/
structure CommandLearningEngine where
  database : LearningDatabase
  database_path : String
  error_patterns : List String

/-- The ten regex pattern strings of `initialize_error_patterns`. -/
def errorPatternStrings : List String :=
  [ "command not-found pattern capturing the quoted name"
  , "unknown-command pattern capturing the name"
  , "invalid-syntax pattern capturing the near-token"
  , "plugin not-installed pattern capturing the plugin"
  , "authentication failed pattern"
  , "network error / connection refused / timeout pattern"
  , "resource not-found pattern capturing the resource"
  , "permission / access denied / forbidden pattern"
  , "missing required parameter pattern"
  , "invalid parameter value pattern" ]

/-- Model of `initialize_retry_strategies`: insert the five seeded strategies into
the database's `retry_strategies` map. -/
def initialize_retry_strategies (m : List (CorrectionType × RetryStrategy)) :
    List (CorrectionType × RetryStrategy) :=
  let m := assocPut m .NetworkError ⟨.ExponentialBackoff, 3, 1000, mkRat 7 10⟩
  let m := assocPut m .AuthenticationError ⟨.NoRetry, 1, 0, mkRat 1 10⟩
  let m := assocPut m .InvalidSyntax ⟨.ContextualRetry, 2, 500, mkRat 4 5⟩
  let m := assocPut m .CommandNotFound ⟨.ImmediateRetry, 2, 0, mkRat 3 5⟩
  assocPut m .ParameterError ⟨.LinearBackoff, 2, 500, mkRat 3 4⟩

/-- What the constructor observes of the database file: missing, present
but unreadable (the `?` on `fs::read_to_string` propagates the error), or
present with string contents. -/
inductive FileProbe where
  | absent
  | readErr (e : String)
  | content (s : String)

/-- Model of `CommandLearningEngine::new(database_path)`.  `parse` models
`serde_json::from_str::<LearningDatabase>` (external crate): `none` is a
deserialization failure, which `unwrap_or_else` silently replaces with a
fresh `LearningDatabase::new()`. -/
def CommandLearningEngine.new (parse : String → Option LearningDatabase)
    (probe : FileProbe) (path : String) (now : Int) :
    Except String CommandLearningEngine :=
  let mk : LearningDatabase → CommandLearningEngine := fun db =>
    { database := { db with retry_strategies :=
        initialize_retry_strategies db.retry_strategies }
      database_path := path
      error_patterns := errorPatternStrings }
  match probe with
  | .absent => .ok (mk (LearningDatabase.new now))
  | .readErr e => .error e
  | .content s => .ok (mk ((parse s).getD (LearningDatabase.new now)))

/-- A whole-file write performed by `CommandLearningEngine::save`. -/
structure FileWrite where
  path : String
  data : String

/-- Model of `CommandLearningEngine::save`: serialize the current database and
write it to `database_path`, replacing the previous file contents
(`serialize` models `serde_json::to_string_pretty`). -/
def CommandLearningEngine.saveWrite (serialize : LearningDatabase → String)
    (e : CommandLearningEngine) : FileWrite :=
  { path := e.database_path, data := serialize e.database }

/-! ## `src/rag/vector_store.rs`: the in-memory `LocalVectorStore`

`VectorDocument` and `SearchConfig` are re-exported from the crate's core
module; their fields are those of the identical declarations in
`crates/cuc-core/src/vector_store.rs`.  `metadata: serde_json::Value` is
modelled as the field list of a JSON object (string values only — the only
access in scope is `metadata.get("title").as_str()`); the unused
`filters: Option<serde_json::Value>` member of `SearchConfig` is dropped
from the model (`search` never reads it). -/

structure VectorDocument where
  id : String
  content : List Char
  embedding : Option (List ℚ)
  metadata : List (String × String)
  score : Option ℚ
deriving DecidableEq

structure SearchConfig where
  top_k : ℕ
  score_threshold : Option ℚ
deriving DecidableEq

/-- Model of `LocalVectorStore::text_similarity(query, content)`: the fraction of
the query's whitespace-words that occur as substrings of the lowercased
content; `0.0` for a word-less query. -/
def text_similarity (query content : List Char) : ℚ :=
  let cl := lowerL content
  let qws := splitWs (lowerL query)
  let matchCount := (qws.filter (fun w => containsSub cl w)).length
  if qws = [] then 0 else mkRat matchCount qws.length

/-- The per-document scoring closure inside `search`: clone the document
with its `score` set to the text similarity against the query. -/
def scoreDoc (q : List Char) (d : VectorDocument) : VectorDocument :=
  { d with score := some (text_similarity q d.content) }

/-- Model of `LocalVectorStore::search(query, config)` (the `VectorStore` trait
implementation): score every stored document, drop documents below the
configured threshold (no filtering when no threshold is set), stable-sort
descending by score, truncate to `top_k`.  `docs` is the iteration order
of `documents.values()` — a `HashMap` whose iteration order is
unspecified.  Rust's stable `sort_by` is modelled by `List.insertionSort`
(all stable sorts under a total preorder agree). -/
def search (docs : List VectorDocument) (q : List Char) (cfg : SearchConfig) :
    List VectorDocument :=
  let scored := docs.map (scoreDoc q)
  let filtered := scored.filter (fun d =>
    match cfg.score_threshold with
    | some t => decide (t ≤ d.score.getD 0)
    | none => true)
  (List.insertionSort (fun a b => b.score.getD 0 ≤ a.score.getD 0) filtered).take
    cfg.top_k

/-! ## `crates/cuc-rag/src/engine.rs`: `LocalRAGEngine` -/

/-- The numbered-item loop of `LocalRAGEngine::build_context`. -/
def build_context_body : List (ℕ × VectorDocument) → String
  | [] => ""
  | (i, d) :: rest =>
    toString (i + 1) ++ ". "
      ++ (match assocGet d.metadata "title" with
          | some ttl => "[" ++ ttl ++ "] "
          | none => "")
      ++ String.mk d.content ++ "\n\n" ++ build_context_body rest

/-- Model of `LocalRAGEngine::build_context(documents)`: empty string for no
documents, otherwise a header followed by the numbered items. -/
def build_context (docs : List VectorDocument) : String :=
  if docs = [] then ""
  else "Relevant IBM Cloud CLI documentation:\n\n" ++ build_context_body docs.enum

/-- Model of `LocalRAGEngine::enhance_prompt(prompt, query)`: retrieve (which runs
`search` on the backing store and formats the context), then
unconditionally emit `context ++ "\n---\n\n" ++ "Based on the above
documentation, " ++ prompt` — there is no empty-retrieval early return. -/
def enhance_prompt_cuc (storeDocs : List VectorDocument) (q : List Char)
    (cfg : SearchConfig) (prompt : String) : String :=
  let docs := search storeDocs q cfg
  build_context docs ++ "\n---\n\n" ++ "Based on the above documentation, " ++ prompt

/-! ## `src/rag.rs`: `RAGEngine` (Qdrant-backed retrieval + prompt building)

The backing `DocumentIndexer::search_context` call talks to a remote
vector database, so the search results arrive as an input
(`searchResults`) of the model; everything `retrieve_context` and
`enhance_prompt` do with them is modelled faithfully below.  `url::Url`
parsing (external crate) is the `urlParse` parameter, returning host and
path on success. -/

structure RAGConfigR where
  max_context_chunks : ℕ
  similarity_threshold : ℚ
  context_window_size : ℕ
  enable_query_expansion : Bool
  prioritize_recent : Bool

/-- Model of `DocumentChunk` of `src/vector_store.rs` (no embedding field). -/
structure DocumentChunkR where
  id : String
  content : String
  source : String
  metadata : List (String × String)
deriving DecidableEq

structure RAGContext where
  relevant_chunks : List DocumentChunkR
  context_summary : String
  confidence_score : ℚ
  sources_used : List String

/-- Model of `RAGEngine::get_source_priority(source)`. -/
def get_source_priority (s : String) : ℕ :=
  if containsS s "cloud.ibm.com/docs/cli" then 10
  else if containsS s "watsonx" then 8
  else if containsS s "cloud.ibm.com" then 7
  else if containsS s "carbondesignsystem.com" then 5
  else 3

/-- Model of `RAGEngine::extract_source_name(source)`. -/
def extract_source_name (urlParse : String → Option (String × String))
    (source : String) : String :=
  let fallback := (source.splitOn "/").getLastD source
  if source.startsWith "http" then
    match urlParse source with
    | some hp => hp.1 ++ hp.2
    | none => fallback
  else fallback

/-- The `chunk_text` string built for item `i` of the context summary. -/
def summaryChunkText (urlParse : String → Option (String × String)) (i : ℕ)
    (ch : DocumentChunkR) : String :=
  "\n[" ++ toString (i + 1) ++ "] Source: "
    ++ extract_source_name urlParse ch.source ++ "\n" ++ ch.content

/-- The chunk loop of `create_context_summary`: append chunk texts while
they fit in the window, tracking the used budget; on overflow append the
truncation marker and stop. -/
def summaryBody (urlParse : String → Option (String × String))
    (maxLen total : ℕ) : List (ℕ × DocumentChunkR) → ℕ → String
  | [], _ => ""
  | (i, ch) :: rest, cur =>
    let t := summaryChunkText urlParse i ch
    if maxLen < cur + t.length then
      "\n[...] (Additional context truncated to fit window)\n"
    else
      t ++ (if i < total - 1 then "\n---\n" else "")
        ++ summaryBody urlParse maxLen total rest (cur + t.length)

/-- Model of `RAGEngine::create_context_summary(chunks, query)`. -/
def create_context_summary (urlParse : String → Option (String × String))
    (cfg : RAGConfigR) (chunks : List DocumentChunkR) (query : String) : String :=
  if chunks = [] then ""
  else
    "\n=== RELEVANT CONTEXT FOR: " ++ query ++ " ===\n"
      ++ summaryBody urlParse cfg.context_window_size chunks.length chunks.enum 0
      ++ "\n=== END CONTEXT ===\n"

/-- Model of `RAGEngine::calculate_confidence_score(chunks, query)`.  (For a
word-less query the `f32` code divides `0.0/0.0`, giving NaN; the model
returns `0` there — no claim touches that case.) -/
def calculate_confidence_score (chunks : List DocumentChunkR) (query : String) : ℚ :=
  if chunks = [] then 0
  else
    let qws := splitWs (lowerL query.toList)
    let total := (chunks.map (fun ch =>
      let cws := splitWs (lowerL ch.content.toList)
      let overlapCount := (qws.filter (fun w => cws.contains w)).length
      mkRat overlapCount qws.length * mkRat (get_source_priority ch.source) 10)).sum
    min (total / (chunks.length : ℚ)) 1

/-- Model of `RAGEngine::retrieve_context(query)`, from the point where the search
results are in hand: stable-sort by source priority (descending), build
the summary, confidence and deduplicated source list.  (`sources_used` is
collected through a `HashSet`, whose iteration order is unspecified;
`dedup` is one admissible order.) -/
def retrieve_context (urlParse : String → Option (String × String))
    (cfg : RAGConfigR) (searchResults : List DocumentChunkR) (query : String) :
    RAGContext :=
  let sorted := List.insertionSort
    (fun a b => get_source_priority b.source ≤ get_source_priority a.source)
    searchResults
  { relevant_chunks := sorted
    context_summary := create_context_summary urlParse cfg sorted query
    confidence_score := calculate_confidence_score sorted query
    sources_used := (sorted.map (·.source)).dedup }

/-- Model of `RAGEngine::enhance_prompt(original_prompt, query)`: if retrieval
produced no chunks return the original prompt unchanged; otherwise emit
the formatted context, the grounding preamble, the original prompt and the
accuracy instruction. -/
def enhance_prompt_rag (urlParse : String → Option (String × String))
    (cfg : RAGConfigR) (searchResults : List DocumentChunkR)
    (originalPrompt query : String) : String :=
  let ctx := retrieve_context urlParse cfg searchResults query
  if ctx.relevant_chunks.isEmpty then originalPrompt
  else
    ctx.context_summary
      ++ "\n\nBased on the above documentation context, please " ++ originalPrompt
      ++ "\n\nEnsure your response is accurate and references the provided documentation when relevant."

/-! ## `src/local_vector_store.rs`: hash embedder

`DefaultHasher::new()` is `SipHasher13::new_with_keys(0, 0)` — fixed keys,
no per-process randomness — and hashing a `&str` feeds its UTF-8 bytes
followed by a `0xFF` terminator byte into the hasher.  SipHash-1-3 is
reproduced below on `ℕ` modulo `2 ^ 64`.  (No theorem depends on the hash
values themselves, only on `hashStr` being a fixed pure function.) -/

def w64mask : ℕ := 2 ^ 64

def wadd64 (a b : ℕ) : ℕ := (a + b) % w64mask

def rotl64 (x r : ℕ) : ℕ := (x <<< r) % w64mask ||| x >>> (64 - r)

/-- One SipHash compression round. -/
def sipRound : ℕ × ℕ × ℕ × ℕ → ℕ × ℕ × ℕ × ℕ := fun st =>
  let v0 := wadd64 st.1 st.2.1
  let v1 := rotl64 st.2.1 13
  let v1 := v1 ^^^ v0
  let v0 := rotl64 v0 32
  let v2 := wadd64 st.2.2.1 st.2.2.2
  let v3 := rotl64 st.2.2.2 16
  let v3 := v3 ^^^ v2
  let v0 := wadd64 v0 v3
  let v3 := rotl64 v3 21
  let v3 := v3 ^^^ v0
  let v2 := wadd64 v2 v1
  let v1 := rotl64 v1 17
  let v1 := v1 ^^^ v2
  let v2 := rotl64 v2 32
  (v0, v1, v2, v3)

/-- Little-endian word value of up to eight bytes. -/
def leWord (bs : List ℕ) : ℕ := bs.foldr (fun b acc => acc * 256 + b) 0

/-- Absorb one 64-bit message word (SipHash-1-3: one round per word). -/
def sipBlockStep (st : ℕ × ℕ × ℕ × ℕ) (m : ℕ) : ℕ × ℕ × ℕ × ℕ :=
  let r := sipRound (st.1, st.2.1, st.2.2.1, st.2.2.2 ^^^ m)
  (r.1 ^^^ m, r.2.1, r.2.2.1, r.2.2.2)

/-- Absorb all full 8-byte blocks, returning the tail of fewer than eight
bytes. -/
def sipBlocksGo : ℕ × ℕ × ℕ × ℕ → List ℕ → (ℕ × ℕ × ℕ × ℕ) × List ℕ
  | st, b0 :: b1 :: b2 :: b3 :: b4 :: b5 :: b6 :: b7 :: rest =>
    sipBlocksGo (sipBlockStep st (leWord [b0, b1, b2, b3, b4, b5, b6, b7])) rest
  | st, bs => (st, bs)

/-- SipHash-1-3 with both keys zero, over a byte list. -/
def sipHash13 (bs : List ℕ) : ℕ :=
  let init : ℕ × ℕ × ℕ × ℕ :=
    (0x736f6d6570736575, 0x646f72616e646f6d, 0x6c7967656e657261, 0x7465646279746573)
  let sr := sipBlocksGo init bs
  let m := leWord sr.2 + bs.length % 256 * 2 ^ 56
  let st := sipBlockStep sr.1 m
  let st := sipRound (sipRound (sipRound (st.1, st.2.1, st.2.2.1 ^^^ 0xff, st.2.2.2)))
  st.1 ^^^ st.2.1 ^^^ st.2.2.1 ^^^ st.2.2.2

/-- UTF-8 encoding of one scalar value. -/
def utf8Bytes (c : Char) : List ℕ :=
  let n := c.toNat
  if n < 0x80 then [n]
  else if n < 0x800 then
    [0xC0 ||| n >>> 6, 0x80 ||| (n &&& 0x3F)]
  else if n < 0x10000 then
    [0xE0 ||| n >>> 12, 0x80 ||| (n >>> 6 &&& 0x3F), 0x80 ||| (n &&& 0x3F)]
  else
    [0xF0 ||| n >>> 18, 0x80 ||| (n >>> 12 &&& 0x3F), 0x80 ||| (n >>> 6 &&& 0x3F),
      0x80 ||| (n &&& 0x3F)]

/-- Model of `DefaultHasher::new()` feed of a `&str` followed by `finish()`:
SipHash-1-3 (zero keys) of the UTF-8 bytes plus the `0xFF` terminator. -/
def hashStr (w : List Char) : ℕ :=
  sipHash13 ((w.map utf8Bytes).flatten ++ [0xff])

/-- The embedding dimension of `LocalVectorStore` (384). -/
def embDim : ℕ := 384

/-- The update `embedding[i] += x` on the vector model. -/
def addAt (v : List ℚ) (i : ℕ) (x : ℚ) : List ℚ :=
  v.set i (v.getD i 0 + x)

/-- The per-word accumulation step of `generate_embeddings`: three feature
indices from bit-shifts of the word hash, weighted `1/(pos+1)`, `0.7` and
`0.5` of that. -/
def wordStep (v : List ℚ) (pos : ℕ) (w : List Char) : List ℚ :=
  let h := hashStr w
  let pw : ℚ := mkRat 1 (pos + 1)
  let v := addAt v (h % embDim) pw
  let v := addAt v (h >>> 16 % embDim) (pw * mkRat 7 10)
  addAt v (h >>> 32 % embDim) (pw * mkRat 1 2)

/-- The per-bigram accumulation step: weight `0.8` at the bigram hash
index. -/
def bigramStep (v : List ℚ) (w1 w2 : List Char) : List ℚ :=
  addAt v (hashStr (w1 ++ ' ' :: w2) % embDim) (mkRat 4 5)

/-- The accumulation phase of `LocalVectorStore::generate_embeddings`:
lowercase, split into words, add word features then bigram features into a
384-long zero vector.  The final step of the Rust function divides the
vector by its L2 norm when that norm is positive; the norm is irrational
in general, so that normalization is expressed over `ℝ` in the theorem
statements rather than as a program-level `def`. -/
def generateAccum (text : List Char) : List ℚ :=
  let ws := splitWs (lowerL text)
  let v := List.replicate embDim (0 : ℚ)
  let v := ws.enum.foldl (fun v iw => wordStep v iw.1 iw.2) v
  (ws.zip ws.tail).foldl (fun v p => bigramStep v p.1 p.2) v

/-- Sum of squares (the squared L2 norm) over `ℚ`. -/
def sumSq (l : List ℚ) : ℚ := (l.map (fun x => x * x)).sum

/-! ## `src/local_document_indexer.rs` and `src/local_vector_store.rs`:
chunking and the file-backed document store

Chunk ids are the strings `md5hex(content)` (whole-document path) and
`md5hex(source) ++ "-" ++ index` (split path).  A 32-character hex digest
contains no `-`, so the two formats never collide and the second is
injective in `(digest, index)`; `ChunkId` captures exactly that string
space.  `md5hex` itself (external `md5` crate) is a function parameter. -/

inductive ChunkId where
  | contentHash (h : String)
  | indexed (h : String) (i : ℕ)
deriving DecidableEq

/-- Model of `DocumentChunk` of `src/local_vector_store.rs`.  The stored
`embedding` is the accumulated feature vector (the Rust code stores it
scaled by the reciprocal norm; the positive scale factor plays no role in
any claim and is irrational in general). -/
structure DocumentChunkL where
  id : ChunkId
  content : List Char
  source : List Char
  metadata : List (String × String)
  embedding : List ℚ
deriving DecidableEq

/-- The character loop of `split_into_sentences`: push each character onto
the current sentence; at `.`/`!`/`?` not followed by a lowercase letter or
digit, flush the trimmed sentence when it is longer than 10 characters. -/
def split_into_sentences_go (cur : List Char) : List Char → List (List Char)
  | [] => if trimL cur = [] then [] else [trimL cur]
  | c :: rest =>
    let cur' := cur ++ [c]
    if c = '.' ∨ c = '!' ∨ c = '?' then
      let isEnd : Bool :=
        match rest with
        | [] => true
        | n :: _ => !(n.isLower || n.isDigit)
      if isEnd ∧ 10 < (trimL cur').length then
        trimL cur' :: split_into_sentences_go [] rest
      else split_into_sentences_go cur' rest
    else split_into_sentences_go cur' rest

/-- Model of `LocalDocumentIndexer::split_into_sentences(text)`. -/
def split_into_sentences (p : List Char) : List (List Char) :=
  split_into_sentences_go [] p

/-- Model of `text.split("\n\n")`: split on each non-overlapping occurrence of the
two-newline separator, leftmost first (always at least one piece). -/
def splitParasGo (cur : List Char) : List Char → List (List Char)
  | [] => [cur.reverse]
  | '\n' :: '\n' :: rest => cur.reverse :: splitParasGo [] rest
  | c :: rest => splitParasGo (c :: cur) rest

def splitParas (text : List Char) : List (List Char) :=
  splitParasGo [] text

/-- The greedy sentence-packing loop of `split_text_into_chunks`: skip
empty sentences; flush the current chunk when appending the next sentence
would exceed the 300-character budget (`current.len + sentence.len + 2`);
otherwise append with a single separating space.  Returns the raw chunk
contents in order (each is trimmed by `create_chunk`). -/
def sentencePack : List (List Char) → List Char → List (List Char)
  | [], cur => if trimL cur = [] then [] else [cur]
  | s :: rest, cur =>
    let s' := trimL s
    if s' = [] then sentencePack rest cur
    else if 300 < cur.length + s'.length + 2 ∧ cur ≠ [] then
      cur :: sentencePack rest s'
    else
      sentencePack rest (if cur = [] then s' else cur ++ ' ' :: s')

/-- The per-paragraph chunk contents of `split_text_into_chunks`: skip
trimmed paragraphs that are empty or shorter than 30 characters, emit
paragraphs of up to 400 characters whole, sentence-pack longer ones. -/
def paraContents (p : List Char) : List (List Char) :=
  let p' := trimL p
  if p' = [] ∨ p'.length < 30 then []
  else if p'.length ≤ 400 then [p']
  else sentencePack (split_into_sentences p') []

/-- Model of `LocalDocumentIndexer::create_chunk(content, source, metadata, index)`:
trimmed content, id `md5hex(source)-index`, `chunk_index` and `chunk_size`
(the pre-trim length) added to the metadata. -/
def create_chunk (md5h : List Char → String) (c src : List Char)
    (meta : List (String × String)) (i : ℕ) : DocumentChunkL :=
  { id := .indexed (md5h src) i
    content := trimL c
    source := src
    metadata := assocPut (assocPut meta "chunk_index" (toString i))
      "chunk_size" (toString c.length)
    embedding := [] }

/-- Model of `LocalDocumentIndexer::split_text_into_chunks(text, source, metadata)`.
The source code threads a mutable `chunk_index` incremented once per
emitted chunk across all paragraphs; enumerating the concatenated contents
produces the same consecutive indices. -/
def split_text_into_chunks (md5h : List Char → String) (text src : List Char)
    (meta : List (String × String)) : List DocumentChunkL :=
  ((splitParas text).map paraContents).flatten.enum.map
    (fun ic => create_chunk md5h ic.2 src meta ic.1)

/-- The chunk list built by
`LocalDocumentIndexer::index_text_document(content, source, metadata)`:
texts of more than 1000 characters are split; shorter ones become a single
chunk with id `md5hex(content)` and the content passed through whole. -/
def index_text_chunks (md5h : List Char → String) (content src : List Char)
    (meta : List (String × String)) : List DocumentChunkL :=
  if 1000 < content.length then split_text_into_chunks md5h content src meta
  else
    [{ id := .contentHash (md5h content)
       content := content
       source := src
       metadata := meta
       embedding := [] }]

/-- Model of `LocalVectorStore::index_document(chunk)`: embed the content, drop any
stored document carrying the same id (`retain`), push the embedded chunk.
The trailing `save_to_file` snapshot does not change the in-memory list. -/
def index_document (store : List DocumentChunkL) (c : DocumentChunkL) :
    List DocumentChunkL :=
  store.filter (fun d => decide (d.id ≠ c.id))
    ++ [{ c with embedding := generateAccum c.content }]

/-- Model of `LocalDocumentIndexer::index_text_document`: feed every produced chunk
through `index_document`. -/
def index_text_document (md5h : List Char → String)
    (store : List DocumentChunkL) (content src : List Char)
    (meta : List (String × String)) : List DocumentChunkL :=
  (index_text_chunks md5h content src meta).foldl index_document store

/-- Model of `LocalVectorStore::search(query, limit)`
(`src/local_vector_store.rs`): embed the query, pair every stored document
with its cosine similarity against the query embedding, stable-sort
descending by that score and return the first `limit` documents.  The
function takes no `score_threshold` and applies no filter.  The `f32`
cosine `dot(a,b) / (|a| * |b|)` divides by square roots of sums of squares
and is irrational in general, so exact arithmetic cannot name its value as
a rational; the model therefore takes the scoring function `cosSim` as a
parameter, applied — as in the code — to the query embedding and each
stored embedding, and the theorems below quantify over every `cosSim`,
hence cover the code's cosine in particular.  Rust's stable `sort_by` is
modelled by `List.insertionSort` as elsewhere; sorting the documents by
their score is the same as sorting the `(score, doc)` pairs and projecting. -/
def search_local (cosSim : List ℚ → List ℚ → ℚ) (docs : List DocumentChunkL)
    (q : List Char) (limit : ℕ) : List DocumentChunkL :=
  let qe := generateAccum q
  (List.insertionSort
    (fun a b => cosSim qe b.embedding ≤ cosSim qe a.embedding) docs).take limit

/-! ## Concrete inputs used by witnesses and counterexamples -/

/-- Two stored documents with identical content (hence tied similarity
scores) and distinct ids.  In the scenario of the `search` tie-break
counterexample, `tieDocA` is inserted into the store's `HashMap` first and
`tieDocB` second. -/
def tieDocA : VectorDocument :=
  { id := "doc-a", content := String.toList "x", embedding := none
    metadata := [], score := none }

def tieDocB : VectorDocument :=
  { id := "doc-b", content := String.toList "x", embedding := none
    metadata := [], score := none }

/-- A stored document sharing no word with the query `"xyz"`. -/
def greetDoc : VectorDocument :=
  { id := "k1", content := String.toList "hello world", embedding := none
    metadata := [("title", "Greeting")], score := none }

/-- The scoring function that assigns cosine similarity 0 to every pair —
the exact value `cosine_similarity` returns whenever the two vectors have
different dimensions or a zero magnitude, as against `emptyEmbedDoc`
below, whose stored embedding is empty. -/
def zeroScore : List ℚ → List ℚ → ℚ := fun _ _ => 0

/-- A stored document whose embedding is the empty vector: against any
384-entry query embedding, the code's `cosine_similarity` hits the
dimension-mismatch guard and returns exactly `0.0`, the value `zeroScore`
gives. -/
def emptyEmbedDoc : DocumentChunkL :=
  { id := .contentHash "c0", content := String.toList "orphan entry"
    source := String.toList "doc0", metadata := [], embedding := [] }

/-- A concrete stand-in for the external md5 hex digest function; no claim
depends on digest values. -/
def md5h0 : List Char → String := fun _ => "d41d8cd98f00b204e9800998ecf8427e"

/-- One 69-character sentence. -/
def oneSentence : String :=
  "The quick brown fox jumps over the lazy dog near the riverbank today."

/-- Seven copies of `oneSentence` joined by single spaces: 489 characters,
seven short sentences, no blank line. -/
def sevenSentences : List Char :=
  String.toList (oneSentence ++ " " ++ oneSentence ++ " " ++ oneSentence ++ " "
    ++ oneSentence ++ " " ++ oneSentence ++ " " ++ oneSentence ++ " " ++ oneSentence)

/-- A single well-formed paragraph between 30 and 400 characters. -/
def midParagraph : List Char :=
  String.toList "Use resource groups to organize the services of an account."

/-- Learned records for the similarity-scenario witness. -/
def recListAll : CommandLearning :=
  { query := String.toList "list all databases"
    correct_command := String.toList "ibmcloud resource service-instances"
    error_pattern := none, timestamp := 0 }

def recShowMy : CommandLearning :=
  { query := String.toList "show my databases"
    correct_command := String.toList "ibmcloud resource service-instances --long"
    error_pattern := none, timestamp := 1 }

/-- The engine value produced by `CommandLearningEngine::new` when it
starts from a fresh `LearningDatabase::new()` (file absent or contents
rejected by the parser). -/
def freshEngine (path : String) (now : Int) : CommandLearningEngine :=
  { database :=
      { corrections := []
        patterns := []
        failure_patterns := []
        retry_strategies := initialize_retry_strategies []
        success_metrics := []
        last_updated := now }
    database_path := path
    error_patterns := errorPatternStrings }

/-! ## Theorems -/

theorem assocGet_assocPut {K V : Type} [DecidableEq K] (m : List (K × V))
    (k : K) (v : V) : assocGet (assocPut m k v) k = some v := by
  induction m with
  | nil => simp [assocPut, assocGet]
  | cons kv rest ih =>
    obtain ⟨k', v'⟩ := kv
    by_cases h : k' = k
    · subst h; simp [assocPut, assocGet]
    · simp [assocPut, assocGet, h, ih]

/-- C1: after two successive `add_correction` calls for the same query
`q` (first recording command `c1`, then `c2`), `get_learned_command q`
returns exactly the second record — the one whose `correct_command` is
`c2` — for every starting state of the corrections map; the first
correction is no longer retrievable by exact query match. -/
theorem add_correction_last_write_wins (m : CorrMap) (q c1 c2 : List Char)
    (e1 e2 : Option (List Char)) (t1 t2 : Int) :
    get_learned_command
        (add_correction (add_correction m q c1 e1 t1) q c2 e2 t2) q
      = some ⟨q, c2, e2, t2⟩
      ∧ (CommandLearning.mk q c2 e2 t2).correct_command = c2 :=
  ⟨assocGet_assocPut _ q _, rfl⟩

/-- C7: `analyze_error` classifies the three specification examples as
`CommandNotFound`, `ParameterError` and `Other("xyz")`, and it is total:
any message on which every substring rule fails (case-insensitively) is
classified `Other` carrying the raw message — never a hard failure. -/
theorem analyze_error_examples_and_total :
    analyze_error (String.toList "'services' is not a registered command")
        = .CommandNotFound
    ∧ analyze_error (String.toList "Missing required parameter: name")
        = .ParameterError
    ∧ analyze_error (String.toList "xyz") = .Other (String.toList "xyz")
    ∧ ∀ msg : List Char,
        containsSub (lowerL msg) (String.toList "not a registered command") = false →
        containsSub (lowerL msg) (String.toList "command not found") = false →
        containsSub (lowerL msg) (String.toList "invalid syntax") = false →
        containsSub (lowerL msg) (String.toList "usage:") = false →
        containsSub (lowerL msg) (String.toList "plugin") = false →
        containsSub (lowerL msg) (String.toList "subcommand") = false →
        containsSub (lowerL msg) (String.toList "parameter") = false →
        containsSub (lowerL msg) (String.toList "argument") = false →
        analyze_error msg = .Other msg := by
  refine ⟨by decide, by decide, by decide, ?_⟩
  intro msg h1 h2 h3 h4 h5 h6 h7 h8
  simp only [analyze_error, h1, h2, h3, h4, h5, h6, h7, h8]
  simp

/-- Witness for C7: the no-rule case applied at the concrete message
`"zzz"`. -/
theorem analyze_error_examples_and_total_witness :
    analyze_error (String.toList "zzz") = .Other (String.toList "zzz") :=
  analyze_error_examples_and_total.2.2.2 (String.toList "zzz")
    (by decide) (by decide) (by decide) (by decide)
    (by decide) (by decide) (by decide) (by decide)

/-- C10: when the learning-database file exists but its contents fail to
deserialize (`parse s = none`), `CommandLearningEngine::new` still returns
`Ok`, carrying a fresh empty database — no corrections, empty pattern and
metrics maps — with the parse failure discarded; the engine keeps the
given path, and the next `save` writes the serialized fresh database over
that same file. -/
theorem engine_new_corrupt_file_fresh (parse : String → Option LearningDatabase)
    (serialize : LearningDatabase → String) (s path : String) (now : Int)
    (h : parse s = none) :
    ∃ e, CommandLearningEngine.new parse (.content s) path now = .ok e
      ∧ e.database.corrections = []
      ∧ e.database.patterns = []
      ∧ e.database.success_metrics = []
      ∧ e.database.failure_patterns = []
      ∧ e.database.last_updated = now
      ∧ e.database_path = path
      ∧ (e.saveWrite serialize).path = path
      ∧ (e.saveWrite serialize).data = serialize e.database := by
  refine ⟨freshEngine path now, ?_, rfl, rfl, rfl, rfl, rfl, rfl, rfl, rfl⟩
  simp [CommandLearningEngine.new, h, LearningDatabase.new, freshEngine]

/-- Witness for C10 at a concrete corrupt file: a parser that rejects the
contents `"not valid json"`. -/
theorem engine_new_corrupt_file_fresh_witness :
    ∃ e, CommandLearningEngine.new (fun _ => none) (.content "not valid json")
        "learning.json" 7 = .ok e
      ∧ e.database.corrections = []
      ∧ e.database.patterns = []
      ∧ e.database.success_metrics = []
      ∧ e.database.failure_patterns = []
      ∧ e.database.last_updated = 7
      ∧ e.database_path = "learning.json"
      ∧ (e.saveWrite (fun _ => "serialized")).path = "learning.json"
      ∧ (e.saveWrite (fun _ => "serialized")).data = "serialized" := by
  obtain ⟨e, h0, h⟩ := engine_new_corrupt_file_fresh (fun _ => none)
    (fun _ => "serialized") "not valid json" "learning.json" 7 rfl
  exact ⟨e, h0, h.1, h.2.1, h.2.2.1, h.2.2.2.1, h.2.2.2.2.1, h.2.2.2.2.2.1,
    h.2.2.2.2.2.2.1, h.2.2.2.2.2.2.2⟩

/-- C6 (amended, `src/rag.rs` part): `RAGEngine::enhance_prompt` returns
the base prompt unchanged exactly when retrieval produced no chunks;
otherwise it returns the formatted retrieval context, then the grounding
preamble, then the base prompt, then the appended instruction to keep the
answer grounded in the provided documentation. -/
theorem enhance_prompt_rag_cases (urlParse : String → Option (String × String))
    (cfg : RAGConfigR) (results : List DocumentChunkR) (prompt query : String) :
    enhance_prompt_rag urlParse cfg results prompt query
      = if results = [] then prompt
        else
          (retrieve_context urlParse cfg results query).context_summary
            ++ "\n\nBased on the above documentation context, please " ++ prompt
            ++ "\n\nEnsure your response is accurate and references the provided documentation when relevant." := by
  have hlen : (retrieve_context urlParse cfg results query).relevant_chunks.length
      = results.length := by
    simp only [retrieve_context]
    exact
      (List.perm_insertionSort
        (fun a b : DocumentChunkR =>
          get_source_priority b.source ≤ get_source_priority a.source)
        results).length_eq
  by_cases h : results = []
  · subst h
    have : (retrieve_context urlParse cfg [] query).relevant_chunks = [] :=
      List.length_eq_zero.mp hlen
    simp [enhance_prompt_rag, this]
  · have hne : (retrieve_context urlParse cfg results query).relevant_chunks ≠ [] := by
      intro hc
      exact h (List.length_eq_zero.mp (by rw [← hlen, hc, List.length_nil]))
    have : (retrieve_context urlParse cfg results query).relevant_chunks.isEmpty
        = false := by
      simpa [List.isEmpty_iff] using hne
    simp [enhance_prompt_rag, this, h]

/-- Counterexample for C6 (the `crates/cuc-rag` implementation): with one
stored document sharing no word with the query and threshold `1/2`,
retrieval returns zero documents, yet `LocalRAGEngine::enhance_prompt`
does not return the base prompt unchanged — it prepends the (empty)
context, a `---` separator and the grounding preamble. -/
theorem enhance_prompt_cuc_not_id_on_empty :
    search [greetDoc] (String.toList "xyz") ⟨3, some (mkRat 1 2)⟩ = []
    ∧ enhance_prompt_cuc [greetDoc] (String.toList "xyz") ⟨3, some (mkRat 1 2)⟩
        "translate the request"
      ≠ "translate the request" := by
  constructor
  · decide
  · decide

theorem filter_map_pairing {α β : Type} (f : α → β) (p : β → Bool) (l : List α) :
    (l.map (fun x => (x, f x))).filter (fun q => p q.2)
      = (l.filter (fun x => p (f x))).map (fun x => (x, f x)) := by
  induction l with
  | nil => rfl
  | cons a l ih => by_cases h : p (f a) <;> simp [h, ih]

/-- Behaviour of the map-backed `search` of `src/rag/vector_store.rs` with a
configured threshold `t` and limit `k`: every returned document carries its
similarity score, which is at least `t`; the untruncated result is a
permutation of the filtered scored corpus, sorted descending by score, and
the output is its `k`-prefix.  Ties follow the order in which the store's
`HashMap` iterates its values (`docs`), which is unspecified. -/
theorem search_filters_sorts_truncates (docs : List VectorDocument)
    (q : List Char) (k : ℕ) (t : ℚ) :
    (∀ d ∈ search docs q ⟨k, some t⟩,
        d.score = some (text_similarity q d.content)
        ∧ t ≤ text_similarity q d.content)
    ∧ List.Sorted (fun a b => b.score.getD 0 ≤ a.score.getD 0)
        (search docs q ⟨k, some t⟩)
    ∧ (search docs q ⟨k, some t⟩).length ≤ k
    ∧ ∃ full,
        full.Perm ((docs.map (scoreDoc q)).filter
          (fun d => decide (t ≤ text_similarity q d.content)))
        ∧ List.Sorted (fun a b => b.score.getD 0 ≤ a.score.getD 0) full
        ∧ search docs q ⟨k, some t⟩ = full.take k := by
  have key : ∀ d ∈ docs.map (scoreDoc q),
      d.score = some (text_similarity q d.content) := by
    intro d hd
    obtain ⟨d0, _, rfl⟩ := List.mem_map.mp hd
    rfl
  have hfc : (docs.map (scoreDoc q)).filter (fun d => decide (t ≤ d.score.getD 0))
      = (docs.map (scoreDoc q)).filter
          (fun d => decide (t ≤ text_similarity q d.content)) := by
    refine List.filter_congr ?_
    intro x hx
    rw [key x hx]
    simp
  haveI : IsTotal VectorDocument
      (fun a b => b.score.getD 0 ≤ a.score.getD 0) := ⟨fun a b => le_total _ _⟩
  haveI : IsTrans VectorDocument
      (fun a b => b.score.getD 0 ≤ a.score.getD 0) :=
    ⟨fun _ _ _ hab hbc => le_trans hbc hab⟩
  have hsearch : search docs q ⟨k, some t⟩
      = (List.insertionSort (fun a b => b.score.getD 0 ≤ a.score.getD 0)
          ((docs.map (scoreDoc q)).filter
            (fun d => decide (t ≤ d.score.getD 0)))).take k := rfl
  have hsorted := List.sorted_insertionSort
    (fun a b : VectorDocument => b.score.getD 0 ≤ a.score.getD 0)
    ((docs.map (scoreDoc q)).filter (fun d => decide (t ≤ d.score.getD 0)))
  have hperm := List.perm_insertionSort
    (fun a b : VectorDocument => b.score.getD 0 ≤ a.score.getD 0)
    ((docs.map (scoreDoc q)).filter (fun d => decide (t ≤ d.score.getD 0)))
  refine ⟨?_, ?_, ?_, ?_⟩
  · intro d hd
    rw [hsearch] at hd
    have hd' := hperm.mem_iff.mp (List.mem_of_mem_take hd)
    have hmem := (List.mem_filter.mp hd').1
    have hp := (List.mem_filter.mp hd').2
    refine ⟨key d hmem, ?_⟩
    have := of_decide_eq_true hp
    rwa [key d hmem, Option.getD_some] at this
  · rw [hsearch]
    exact List.Pairwise.sublist (List.take_sublist _ _) hsorted
  · rw [hsearch]
    exact List.length_take_le _ _
  · refine ⟨_, ?_, hsorted, hsearch⟩
    rw [← hfc]
    exact hperm

/-- Filtering `List.orderedInsert` by a predicate the inserted element
satisfies: when every selected element of the list sorts after the
inserted one, the inserted element lands before all of them, so the
filtered result gains it at the head. -/
theorem filter_orderedInsert_pos {α : Type} (r : α → α → Prop)
    [DecidableRel r] (p : α → Bool) (x : α) (hx : p x = true) :
    ∀ l : List α, (∀ b ∈ l, p b = true → r x b) →
      (List.orderedInsert r x l).filter p = x :: l.filter p := by
  intro l
  induction l with
  | nil => intro _; simp [List.orderedInsert, hx]
  | cons b l ih =>
    intro hall
    by_cases hr : r x b
    · simp [List.orderedInsert, hr, hx]
    · have hpb : p b = false := by
        cases hpbv : p b with
        | false => rfl
        | true => exact absurd (hall b (List.mem_cons_self b l) hpbv) hr
      have ihr := ih (fun c hc hpc => hall c (List.mem_cons_of_mem b hc) hpc)
      simp [List.orderedInsert, hr, hpb, List.filter_cons, ihr]

/-- Filtering `List.orderedInsert` by a predicate the inserted element
fails is the same as filtering the original list. -/
theorem filter_orderedInsert_neg {α : Type} (r : α → α → Prop)
    [DecidableRel r] (p : α → Bool) (x : α) (hx : p x = false) :
    ∀ l : List α, (List.orderedInsert r x l).filter p = l.filter p := by
  intro l
  induction l with
  | nil => simp [List.orderedInsert, hx]
  | cons b l ih =>
    by_cases hr : r x b
    · simp [List.orderedInsert, hr, hx]
    · simp [List.orderedInsert, hr, List.filter_cons, ih]

/-- Stability of the descending insertion sort: within each class of
elements sharing a key value, the sort preserves the original order —
filtering the sorted list by any key value gives exactly the filter of the
input.  This is the tie-break-by-insertion-order property of Rust's stable
`sort_by` over a `Vec`. -/
theorem insertionSort_filter_stable {α : Type} (key : α → ℚ) (s : ℚ)
    (l : List α) :
    (List.insertionSort (fun a b => key b ≤ key a) l).filter
        (fun a => decide (key a = s))
      = l.filter (fun a => decide (key a = s)) := by
  induction l with
  | nil => rfl
  | cons x l ih =>
    show (List.orderedInsert (fun a b => key b ≤ key a) x
        (List.insertionSort (fun a b => key b ≤ key a) l)).filter
          (fun a => decide (key a = s))
      = (x :: l).filter (fun a => decide (key a = s))
    by_cases hx : key x = s
    · rw [filter_orderedInsert_pos (fun a b => key b ≤ key a)
          (fun a => decide (key a = s)) x (by simp [hx]) _
          (fun b _ hpb => by
            have hb : key b = s := of_decide_eq_true hpb
            show key b ≤ key x
            rw [hb, hx]), ih]
      simp [List.filter_cons, hx]
    · rw [filter_orderedInsert_neg (fun a b => key b ≤ key a)
          (fun a => decide (key a = s)) x (by simp [hx]) _, ih]
      simp [List.filter_cons, hx]

/-- Behaviour of `LocalVectorStore::search(query, limit)` of
`src/local_vector_store.rs`, for every scoring function `cosSim` (hence
for the code's cosine): the untruncated result is a permutation of the
whole store — no document is filtered out, whatever its score — sorted
descending by score with every tie class kept in the store's insertion
order, and the output is its `limit`-prefix. -/
theorem search_local_spec (cosSim : List ℚ → List ℚ → ℚ)
    (docs : List DocumentChunkL) (q : List Char) (limit : ℕ) :
    ∃ full : List DocumentChunkL,
      full.Perm docs
      ∧ List.Sorted (fun a b =>
          cosSim (generateAccum q) b.embedding
            ≤ cosSim (generateAccum q) a.embedding) full
      ∧ (∀ s : ℚ,
          full.filter
              (fun d => decide (cosSim (generateAccum q) d.embedding = s))
            = docs.filter
              (fun d => decide (cosSim (generateAccum q) d.embedding = s)))
      ∧ search_local cosSim docs q limit = full.take limit := by
  haveI : IsTotal DocumentChunkL (fun a b =>
      cosSim (generateAccum q) b.embedding
        ≤ cosSim (generateAccum q) a.embedding) :=
    ⟨fun a b => le_total _ _⟩
  haveI : IsTrans DocumentChunkL (fun a b =>
      cosSim (generateAccum q) b.embedding
        ≤ cosSim (generateAccum q) a.embedding) :=
    ⟨fun _ _ _ hab hbc => le_trans hbc hab⟩
  refine ⟨List.insertionSort (fun a b =>
      cosSim (generateAccum q) b.embedding
        ≤ cosSim (generateAccum q) a.embedding) docs,
    List.perm_insertionSort _ _, List.sorted_insertionSort _ _,
    fun s => insertionSort_filter_stable
      (fun d : DocumentChunkL => cosSim (generateAccum q) d.embedding) s docs,
    rfl⟩

/-- C2 (amended), covering both cited implementations.  Map-backed
`search` of `src/rag/vector_store.rs` with a configured threshold: every
returned document carries its similarity score, which meets the threshold;
the result is the `top_k`-prefix of the filtered scored corpus sorted
descending by score — ties follow the store's unspecified `HashMap`
iteration order (`docs`), not necessarily insertion order.
`LocalVectorStore::search` of `src/local_vector_store.rs`, which takes
only a limit: no score filtering happens — the untruncated result is a
permutation of the whole store, sorted descending by score with ties kept
in insertion order (Rust's stable sort over the `Vec`), and the output is
its `limit`-prefix; this holds for every scoring function `cosSim`, in
particular for the code's cosine similarity. -/
theorem search_spec_both_implementations :
    (∀ (docs : List VectorDocument) (q : List Char) (k : ℕ) (t : ℚ),
      (∀ d ∈ search docs q ⟨k, some t⟩,
          d.score = some (text_similarity q d.content)
          ∧ t ≤ text_similarity q d.content)
      ∧ List.Sorted (fun a b => b.score.getD 0 ≤ a.score.getD 0)
          (search docs q ⟨k, some t⟩)
      ∧ (search docs q ⟨k, some t⟩).length ≤ k
      ∧ ∃ full,
          full.Perm ((docs.map (scoreDoc q)).filter
            (fun d => decide (t ≤ text_similarity q d.content)))
          ∧ List.Sorted (fun a b => b.score.getD 0 ≤ a.score.getD 0) full
          ∧ search docs q ⟨k, some t⟩ = full.take k)
    ∧ (∀ (cosSim : List ℚ → List ℚ → ℚ) (docs : List DocumentChunkL)
        (q : List Char) (limit : ℕ),
      ∃ full : List DocumentChunkL,
        full.Perm docs
        ∧ List.Sorted (fun a b =>
            cosSim (generateAccum q) b.embedding
              ≤ cosSim (generateAccum q) a.embedding) full
        ∧ (∀ s : ℚ,
            full.filter
                (fun d => decide (cosSim (generateAccum q) d.embedding = s))
              = docs.filter
                (fun d => decide (cosSim (generateAccum q) d.embedding = s)))
        ∧ search_local cosSim docs q limit = full.take limit) :=
  ⟨fun docs q k t => search_filters_sorts_truncates docs q k t,
   fun cosSim docs q limit => search_local_spec cosSim docs q limit⟩

/-- Witness for C2 at a concrete input: the single stored document scores
1 against the query `"hello"` and is returned carrying that score, which
meets the threshold 0. -/
theorem search_spec_both_implementations_witness :
    (scoreDoc (String.toList "hello") greetDoc).score
        = some (text_similarity (String.toList "hello")
            (scoreDoc (String.toList "hello") greetDoc).content)
    ∧ (0:ℚ) ≤ text_similarity (String.toList "hello")
        (scoreDoc (String.toList "hello") greetDoc).content :=
  (search_spec_both_implementations.1 [greetDoc] (String.toList "hello") 5 0).1
    (scoreDoc (String.toList "hello") greetDoc) (by decide)

/-- Counterexample for C2 as stated, one facet per cited implementation.
Map-backed `search`: `tieDocA` is inserted into the store's `HashMap`
before `tieDocB`; both tie with score 1 against the query `"x"`.
`[tieDocB, tieDocA]` is an admissible iteration order of that map
(`HashMap` iteration order is unspecified), and on it `search` returns the
tied documents in iteration order — the reverse of the insertion order the
claim requires.  `LocalVectorStore::search`: it accepts no
`score_threshold` and filters nothing, so the stored `emptyEmbedDoc` —
whose cosine similarity is exactly 0 (empty embedding, dimension-mismatch
guard), the value `zeroScore` returns — is returned even though its score
falls below any positive threshold such as 1/2, contradicting a reading
where only documents scoring at least the threshold are returned. -/
theorem search_claim_counterexamples :
    (search [tieDocB, tieDocA] (String.toList "x") ⟨2, some 0⟩
        = [scoreDoc (String.toList "x") tieDocB,
           scoreDoc (String.toList "x") tieDocA]
      ∧ text_similarity (String.toList "x") tieDocA.content
          = text_similarity (String.toList "x") tieDocB.content
      ∧ [scoreDoc (String.toList "x") tieDocB, scoreDoc (String.toList "x") tieDocA]
          ≠ [scoreDoc (String.toList "x") tieDocA, scoreDoc (String.toList "x") tieDocB])
    ∧ (search_local zeroScore [emptyEmbedDoc] (String.toList "xyz") 5
        = [emptyEmbedDoc]
      ∧ zeroScore (generateAccum (String.toList "xyz")) emptyEmbedDoc.embedding = 0
      ∧ ¬ (mkRat 1 2
          ≤ zeroScore (generateAccum (String.toList "xyz")) emptyEmbedDoc.embedding)) := by
  exact ⟨⟨by decide, by decide, by decide⟩, ⟨rfl, rfl, by decide⟩⟩

theorem sortPipeline {A : Type} (f : A → ℚ) (t : ℚ) (l : List A) :
    ((List.insertionSort (fun a b : A × ℚ => b.2 ≤ a.2)
        ((l.map (fun x => (x, f x))).filter (fun p => decide (t ≤ p.2)))).map
          Prod.fst).Perm (l.filter (fun x => decide (t ≤ f x)))
    ∧ List.Pairwise (fun a b => f b ≤ f a)
        ((List.insertionSort (fun a b : A × ℚ => b.2 ≤ a.2)
          ((l.map (fun x => (x, f x))).filter (fun p => decide (t ≤ p.2)))).map
            Prod.fst) := by
  haveI : IsTotal (A × ℚ) (fun a b => b.2 ≤ a.2) := ⟨fun a b => le_total _ _⟩
  haveI : IsTrans (A × ℚ) (fun a b => b.2 ≤ a.2) :=
    ⟨fun _ _ _ hab hbc => le_trans hbc hab⟩
  have hperm := List.perm_insertionSort (fun a b : A × ℚ => b.2 ≤ a.2)
    ((l.map (fun x => (x, f x))).filter (fun p => decide (t ≤ p.2)))
  have hsorted := List.sorted_insertionSort (fun a b : A × ℚ => b.2 ≤ a.2)
    ((l.map (fun x => (x, f x))).filter (fun p => decide (t ≤ p.2)))
  constructor
  · refine (hperm.map Prod.fst).trans ?_
    rw [filter_map_pairing f (fun s => decide (t ≤ s)) l, List.map_map]
    have hid : (Prod.fst ∘ fun x : A => (x, f x)) = id := rfl
    rw [hid, List.map_id]
  · rw [List.pairwise_map]
    have hsnd : ∀ p ∈ List.insertionSort (fun a b : A × ℚ => b.2 ≤ a.2)
        ((l.map (fun x => (x, f x))).filter (fun p => decide (t ≤ p.2))),
        p.2 = f p.1 := by
      intro p hp
      have hp' := hperm.mem_iff.mp hp
      have hmem := (List.mem_filter.mp hp').1
      obtain ⟨x, _, rfl⟩ := List.mem_map.mp hmem
      rfl
    refine List.Pairwise.imp_of_mem ?_ hsorted
    intro a b ha hb hab
    rw [hsnd a ha, hsnd b hb] at hab
    exact hab

/-- C9: for a query with at least one word, `find_similar` returns exactly
the stored records whose word-overlap similarity against the query is at
least the threshold (as a permutation of the filtered store), sorted in
descending order of that similarity; and the similarity is the number of
query words present in the candidate's words divided by the query's word
count, both sides lowercased. -/
theorem find_similar_exact_threshold_sorted (corrs : List CommandLearning)
    (q : List Char) (t : ℚ) (h : splitWs (lowerL q) ≠ []) :
    (find_similar corrs q t).Perm
      (corrs.filter (fun l =>
        decide (t ≤ calculate_similarity (lowerL q) (lowerL l.query))))
    ∧ List.Sorted (fun a b =>
        calculate_similarity (lowerL q) (lowerL b.query)
          ≤ calculate_similarity (lowerL q) (lowerL a.query)) (find_similar corrs q t)
    ∧ ∀ cand : List Char,
        calculate_similarity (lowerL q) cand
          = (((splitWs (lowerL q)).filter
                (fun w => (splitWs cand).contains w)).length : ℚ)
            / ((splitWs (lowerL q)).length : ℚ) := by
  have H := sortPipeline
    (fun l : CommandLearning => calculate_similarity (lowerL q) (lowerL l.query))
    t corrs
  refine ⟨H.1, H.2, ?_⟩
  intro cand
  have hcond : ¬(splitWs (lowerL q) = []) := h
  simp only [calculate_similarity, if_neg hcond]
  rw [Rat.mkRat_eq_div]
  push_cast
  rfl

/-- Witness for C9: the specification scenario — corrections stored for
`"list all databases"` and `"show my databases"`, queried with
`"list databases"` at threshold `3/10`; plus the similarity formula
evaluated at the second stored query. -/
theorem find_similar_exact_threshold_sorted_witness :
    (find_similar [recListAll, recShowMy] (String.toList "list databases")
        (mkRat 3 10)).Perm
      ([recListAll, recShowMy].filter (fun l =>
        decide (mkRat 3 10 ≤ calculate_similarity
          (lowerL (String.toList "list databases")) (lowerL l.query))))
    ∧ List.Sorted (fun a b =>
        calculate_similarity (lowerL (String.toList "list databases"))
            (lowerL b.query)
          ≤ calculate_similarity (lowerL (String.toList "list databases"))
            (lowerL a.query))
        (find_similar [recListAll, recShowMy] (String.toList "list databases")
          (mkRat 3 10))
    ∧ calculate_similarity (lowerL (String.toList "list databases"))
        (lowerL recShowMy.query)
      = (((splitWs (lowerL (String.toList "list databases"))).filter
            (fun w => (splitWs (lowerL recShowMy.query)).contains w)).length : ℚ)
        / ((splitWs (lowerL (String.toList "list databases"))).length : ℚ) := by
  have h := find_similar_exact_threshold_sorted [recListAll, recShowMy]
    (String.toList "list databases") (mkRat 3 10) (by decide)
  exact ⟨h.1, h.2.1, h.2.2 (lowerL recShowMy.query)⟩

/-! ### Embedder lemmas (C4, C5) -/

theorem addAt_length (v : List ℚ) (i : ℕ) (x : ℚ) :
    (addAt v i x).length = v.length :=
  List.length_set v i _

theorem getD_nonneg (v : List ℚ) (i : ℕ) (hv : ∀ y ∈ v, 0 ≤ y) :
    0 ≤ v.getD i 0 := by
  induction v generalizing i with
  | nil => simp [List.getD]
  | cons a v ih =>
    cases i with
    | zero => simpa using hv a (List.mem_cons_self a v)
    | succ i => simpa using ih i (fun y hy => hv y (List.mem_cons_of_mem a hy))

theorem addAt_nonneg (v : List ℚ) (i : ℕ) (x : ℚ) (hv : ∀ y ∈ v, 0 ≤ y)
    (hx : 0 ≤ x) : ∀ y ∈ addAt v i x, 0 ≤ y := by
  intro y hy
  rcases List.mem_or_eq_of_mem_set hy with h | h
  · exact hv y h
  · rw [h]
    exact add_nonneg (getD_nonneg v i hv) hx

theorem addAt_sum (v : List ℚ) (i : ℕ) (x : ℚ) (hi : i < v.length) :
    (addAt v i x).sum = v.sum + x := by
  induction v generalizing i with
  | nil => simp at hi
  | cons a v ih =>
    cases i with
    | zero => simp [addAt]; ring
    | succ i =>
      have hi' : i < v.length := Nat.lt_of_succ_lt_succ hi
      have hstep : addAt (a :: v) (i + 1) x = a :: addAt v i x := by
        simp [addAt]
      rw [hstep, List.sum_cons, List.sum_cons, ih i hi']
      ring

theorem embDim_pos : 0 < embDim := by decide

/-- One `+=` step starting from a 384-long nonnegative vector: length and
nonnegativity are preserved, and the sum grows exactly by the added
weight. -/
theorem addAt_props (v : List ℚ) (i : ℕ) (x : ℚ) (hlen : v.length = embDim)
    (hv : ∀ y ∈ v, 0 ≤ y) (hx : 0 ≤ x) (hi : i < embDim) :
    (addAt v i x).length = embDim
    ∧ (∀ y ∈ addAt v i x, 0 ≤ y)
    ∧ (addAt v i x).sum = v.sum + x :=
  ⟨by rw [addAt_length, hlen], addAt_nonneg v i x hv hx,
    addAt_sum v i x (by rw [hlen]; exact hi)⟩

theorem mkRat_posWeight_pos (n : ℕ) : 0 < mkRat 1 (n + 1) := by
  rw [Rat.mkRat_eq_div]
  refine div_pos one_pos ?_
  exact_mod_cast Nat.succ_pos n

/-- One word step preserves length and entrywise nonnegativity and
strictly increases the coordinate sum. -/
theorem wordStep_props (v : List ℚ) (pos : ℕ) (w : List Char)
    (hlen : v.length = embDim) (hv : ∀ y ∈ v, 0 ≤ y) :
    (wordStep v pos w).length = embDim
    ∧ (∀ y ∈ wordStep v pos w, 0 ≤ y)
    ∧ v.sum < (wordStep v pos w).sum := by
  have hpw : 0 < mkRat 1 (pos + 1) := mkRat_posWeight_pos pos
  have h7 : (0:ℚ) < mkRat 7 10 := by rw [Rat.mkRat_eq_div]; norm_num
  have h5 : (0:ℚ) < mkRat 1 2 := by rw [Rat.mkRat_eq_div]; norm_num
  have hx2 : 0 < mkRat 1 (pos + 1) * mkRat 7 10 := mul_pos hpw h7
  have hx3 : 0 < mkRat 1 (pos + 1) * mkRat 1 2 := mul_pos hpw h5
  obtain ⟨l1, n1, s1⟩ := addAt_props v (hashStr w % embDim) (mkRat 1 (pos + 1))
    hlen hv hpw.le (Nat.mod_lt _ embDim_pos)
  obtain ⟨l2, n2, s2⟩ := addAt_props _ (hashStr w >>> 16 % embDim)
    (mkRat 1 (pos + 1) * mkRat 7 10) l1 n1 hx2.le (Nat.mod_lt _ embDim_pos)
  obtain ⟨l3, n3, s3⟩ := addAt_props _ (hashStr w >>> 32 % embDim)
    (mkRat 1 (pos + 1) * mkRat 1 2) l2 n2 hx3.le (Nat.mod_lt _ embDim_pos)
  refine ⟨l3, n3, ?_⟩
  show v.sum < (addAt (addAt (addAt v (hashStr w % embDim) (mkRat 1 (pos + 1)))
    (hashStr w >>> 16 % embDim) (mkRat 1 (pos + 1) * mkRat 7 10))
    (hashStr w >>> 32 % embDim) (mkRat 1 (pos + 1) * mkRat 1 2)).sum
  rw [s3, s2, s1]
  linarith

/-- One bigram step preserves length and nonnegativity and does not
decrease the coordinate sum. -/
theorem bigramStep_props (v : List ℚ) (w1 w2 : List Char)
    (hlen : v.length = embDim) (hv : ∀ y ∈ v, 0 ≤ y) :
    (bigramStep v w1 w2).length = embDim
    ∧ (∀ y ∈ bigramStep v w1 w2, 0 ≤ y)
    ∧ v.sum ≤ (bigramStep v w1 w2).sum := by
  have h8 : (0:ℚ) < mkRat 4 5 := by rw [Rat.mkRat_eq_div]; norm_num
  obtain ⟨l1, n1, s1⟩ := addAt_props v (hashStr (w1 ++ ' ' :: w2) % embDim)
    (mkRat 4 5) hlen hv h8.le (Nat.mod_lt _ embDim_pos)
  refine ⟨l1, n1, ?_⟩
  show v.sum ≤ (addAt v (hashStr (w1 ++ ' ' :: w2) % embDim) (mkRat 4 5)).sum
  rw [s1]
  linarith

/-- The word-feature fold preserves length and nonnegativity, never
decreases the sum, and strictly increases it when at least one word is
processed. -/
theorem wordFold_props (ps : List (ℕ × List Char)) (v : List ℚ)
    (hlen : v.length = embDim) (hv : ∀ y ∈ v, 0 ≤ y) :
    (ps.foldl (fun v iw => wordStep v iw.1 iw.2) v).length = embDim
    ∧ (∀ y ∈ ps.foldl (fun v iw => wordStep v iw.1 iw.2) v, 0 ≤ y)
    ∧ v.sum ≤ (ps.foldl (fun v iw => wordStep v iw.1 iw.2) v).sum
    ∧ (ps ≠ [] → v.sum < (ps.foldl (fun v iw => wordStep v iw.1 iw.2) v).sum) := by
  induction ps generalizing v with
  | nil => exact ⟨hlen, hv, le_refl _, fun h => absurd rfl h⟩
  | cons p ps ih =>
    obtain ⟨l1, n1, s1⟩ := wordStep_props v p.1 p.2 hlen hv
    obtain ⟨l2, n2, s2, _⟩ := ih (wordStep v p.1 p.2) l1 n1
    exact ⟨l2, n2, le_trans s1.le s2, fun _ => lt_of_lt_of_le s1 s2⟩

/-- The bigram fold preserves length and nonnegativity and never decreases
the sum. -/
theorem bigramFold_props (ps : List (List Char × List Char)) (v : List ℚ)
    (hlen : v.length = embDim) (hv : ∀ y ∈ v, 0 ≤ y) :
    (ps.foldl (fun v p => bigramStep v p.1 p.2) v).length = embDim
    ∧ (∀ y ∈ ps.foldl (fun v p => bigramStep v p.1 p.2) v, 0 ≤ y)
    ∧ v.sum ≤ (ps.foldl (fun v p => bigramStep v p.1 p.2) v).sum := by
  induction ps generalizing v with
  | nil => exact ⟨hlen, hv, le_refl _⟩
  | cons p ps ih =>
    obtain ⟨l1, n1, s1⟩ := bigramStep_props v p.1 p.2 hlen hv
    obtain ⟨l2, n2, s2⟩ := ih (bigramStep v p.1 p.2) l1 n1
    exact ⟨l2, n2, le_trans s1 s2⟩

theorem replicate_zero_props :
    (List.replicate embDim (0:ℚ)).length = embDim
    ∧ (∀ y ∈ List.replicate embDim (0:ℚ), 0 ≤ y)
    ∧ (List.replicate embDim (0:ℚ)).sum = 0 := by
  refine ⟨List.length_replicate _ _, ?_, ?_⟩
  · intro y hy
    rw [List.eq_of_mem_replicate hy]
  · rw [List.sum_replicate, smul_zero]

set_option maxHeartbeats 1000000 in
theorem generateAccum_props (t : List Char) :
    (generateAccum t).length = embDim
    ∧ (∀ y ∈ generateAccum t, 0 ≤ y)
    ∧ (splitWs (lowerL t) ≠ [] → 0 < (generateAccum t).sum) := by
  obtain ⟨hlen0, hnn0, hsum0⟩ := replicate_zero_props
  obtain ⟨l1, n1, s1, s1p⟩ := wordFold_props (splitWs (lowerL t)).enum
    (List.replicate embDim (0:ℚ)) hlen0 hnn0
  obtain ⟨l2, n2, s2⟩ := bigramFold_props
    ((splitWs (lowerL t)).zip (splitWs (lowerL t)).tail) _ l1 n1
  refine ⟨l2, n2, ?_⟩
  intro hne
  have henum : (splitWs (lowerL t)).enum ≠ [] := by
    intro hc
    apply hne
    have := congrArg List.length hc
    simpa using this
  have := s1p henum
  rw [hsum0] at this
  exact lt_of_lt_of_le this s2

theorem sumSq_nonneg (v : List ℚ) : 0 ≤ sumSq v := by
  refine List.sum_nonneg ?_
  intro x hx
  obtain ⟨y, _, rfl⟩ := List.mem_map.mp hx
  exact mul_self_nonneg y

theorem sumSq_pos_of_sum_pos (v : List ℚ) (hv : ∀ y ∈ v, 0 ≤ y)
    (hs : 0 < v.sum) : 0 < sumSq v := by
  induction v with
  | nil => simp at hs
  | cons a v ih =>
    rcases lt_or_eq_of_le (hv a (List.mem_cons_self a v)) with ha | ha
    · have hsq : 0 < a * a := mul_pos ha ha
      have hrest : 0 ≤ sumSq v := sumSq_nonneg v
      have : 0 < a * a + sumSq v := by linarith
      simpa [sumSq] using this
    · have hsv : 0 < v.sum := by
        rw [List.sum_cons, ← ha, zero_add] at hs
        exact hs
      have hpos := ih (fun y hy => hv y (List.mem_cons_of_mem a hy)) hsv
      have hsq : 0 ≤ a * a := mul_self_nonneg a
      have : 0 < a * a + sumSq v := by linarith
      simpa [sumSq] using this

theorem generateAccum_of_no_words (t : List Char)
    (h : splitWs (lowerL t) = []) :
    generateAccum t = List.replicate 384 (0:ℚ) := by
  show (let ws := splitWs (lowerL t)
    let v := List.replicate embDim (0 : ℚ)
    let v := ws.enum.foldl (fun v iw => wordStep v iw.1 iw.2) v
    (ws.zip ws.tail).foldl (fun v p => bigramStep v p.1 p.2) v)
      = List.replicate 384 (0:ℚ)
  rw [h]
  rfl

/-- C4: the embedder is a pure function of the text — `DefaultHasher` is
seeded with fixed keys (modelled by the closed `hashStr`), so two
invocations on the same text, within one process or across separate runs,
produce identical vectors — and the produced vector (both the accumulated
feature vector and its normalized form) has exactly 384 entries. -/
theorem generate_embeddings_deterministic_384 (t : List Char) :
    generateAccum t = generateAccum t
    ∧ (generateAccum t).length = 384
    ∧ ((generateAccum t).map
        (fun x : ℚ => (x : ℝ) / Real.sqrt ((sumSq (generateAccum t) : ℝ)))).length
      = 384 := by
  have hl := (generateAccum_props t).1
  exact ⟨rfl, hl.trans rfl, by rw [List.length_map, hl]; rfl⟩

/-- C5: for every text, either the lowercased text has no words — the
degenerate case, in which the accumulated vector is the zero vector and is
returned unnormalized — or the accumulated squared norm is positive and
the normalized output (each entry divided by the L2 norm) has squared norm
exactly 1, so its L2 norm is within `1e-5` of `1.0`. -/
theorem embed_unit_norm (t : List Char) :
    (splitWs (lowerL t) = [] ∧ generateAccum t = List.replicate 384 (0:ℚ))
    ∨ (0 < sumSq (generateAccum t)
      ∧ ((generateAccum t).map
          (fun x : ℚ =>
            ((x : ℝ) / Real.sqrt ((sumSq (generateAccum t) : ℝ))) ^ 2)).sum = 1
      ∧ |Real.sqrt (((generateAccum t).map
          (fun x : ℚ =>
            ((x : ℝ) / Real.sqrt ((sumSq (generateAccum t) : ℝ))) ^ 2)).sum)
          - 1| ≤ 1 / 100000) := by
  by_cases h : splitWs (lowerL t) = []
  · exact Or.inl ⟨h, generateAccum_of_no_words t h⟩
  · obtain ⟨_, hnn, hposf⟩ := generateAccum_props t
    have hpos := hposf h
    have hS : 0 < sumSq (generateAccum t) :=
      sumSq_pos_of_sum_pos _ hnn hpos
    have hSR : (0:ℝ) < ((sumSq (generateAccum t) : ℚ) : ℝ) := by
      exact_mod_cast hS
    have hdivsum : ∀ (l : List ℚ) (m : ℝ),
        (l.map (fun x : ℚ => ((x:ℝ) / m) ^ 2)).sum
          = (l.map (fun x : ℚ => (x:ℝ) ^ 2)).sum / m ^ 2 := by
      intro l m
      induction l with
      | nil => simp
      | cons a l ih =>
        rw [List.map_cons, List.sum_cons, ih, div_pow, List.map_cons,
          List.sum_cons, add_div]
    have hcast : ∀ l : List ℚ,
        ((sumSq l : ℚ) : ℝ) = (l.map (fun x : ℚ => (x:ℝ) ^ 2)).sum := by
      intro l
      induction l with
      | nil => simp [sumSq]
      | cons a l ih =>
        have hstep : sumSq (a :: l) = a * a + sumSq l := by simp [sumSq]
        rw [hstep]
        push_cast
        rw [ih, List.map_cons, List.sum_cons]
        ring
    have hsum : ((generateAccum t).map
        (fun x : ℚ =>
          ((x : ℝ) / Real.sqrt ((sumSq (generateAccum t) : ℝ))) ^ 2)).sum
        = 1 := by
      rw [hdivsum, Real.sq_sqrt hSR.le, ← hcast]
      exact div_self (ne_of_gt hSR)
    refine Or.inr ⟨hS, hsum, ?_⟩
    rw [hsum, Real.sqrt_one]
    norm_num

/-! ### Chunking lemmas (C3) and store idempotence (C8) -/

theorem dropWhile_le_length (p : Char → Bool) (l : List Char) :
    (List.dropWhile p l).length ≤ l.length := by
  induction l with
  | nil => simp
  | cons a l ih =>
    rw [List.dropWhile_cons]
    by_cases h : p a = true
    · rw [if_pos h]
      exact le_trans ih (Nat.le_succ _)
    · rw [if_neg h]

theorem dropWhile_twice (p : Char → Bool) (l : List Char) :
    List.dropWhile p (List.dropWhile p l) = List.dropWhile p l := by
  induction l with
  | nil => simp
  | cons a l ih =>
    rw [List.dropWhile_cons]
    by_cases h : p a = true
    · rw [if_pos h, ih]
    · rw [if_neg h, List.dropWhile_cons, if_neg h]

theorem dropWhile_head_false (p : Char → Bool) (l : List Char) (a : Char)
    (t : List Char) (h : List.dropWhile p l = a :: t) : p a = false := by
  induction l with
  | nil => simp at h
  | cons b l ih =>
    rw [List.dropWhile_cons] at h
    by_cases hb : p b = true
    · rw [if_pos hb] at h
      exact ih h
    · rw [if_neg hb] at h
      obtain ⟨rfl, -⟩ := List.cons.inj h
      exact Bool.eq_false_iff.mpr hb

theorem trimL_length_le (s : List Char) : (trimL s).length ≤ s.length := by
  have h1 := dropWhile_le_length Char.isWhitespace (dropWs s).reverse
  have h2 := dropWhile_le_length Char.isWhitespace s
  rw [List.length_reverse] at h1
  calc (trimL s).length
      = (List.dropWhile Char.isWhitespace (dropWs s).reverse).length :=
        List.length_reverse _
    _ ≤ (dropWs s).length := h1
    _ ≤ s.length := h2

theorem trimL_nil : trimL [] = [] := rfl

/-- Because `trimL s` is a prefix of `dropWs s`, it has no leading whitespace. -/
theorem dropWs_trimL (s : List Char) : dropWs (trimL s) = trimL s := by
  rcases htr : trimL s with _ | ⟨a, t⟩
  · rfl
  · have hsplit := List.takeWhile_append_dropWhile Char.isWhitespace (dropWs s).reverse
    have h2 : dropWs s
        = trimL s ++ (List.takeWhile Char.isWhitespace (dropWs s).reverse).reverse := by
      have hr := congrArg List.reverse hsplit
      rw [List.reverse_append] at hr
      calc dropWs s = (dropWs s).reverse.reverse := (List.reverse_reverse _).symm
        _ = _ := by rw [← hr]; rfl
    rw [htr] at h2
    have hpa : Char.isWhitespace a = false := by
      refine dropWhile_head_false Char.isWhitespace s a
        (t ++ (List.takeWhile Char.isWhitespace (dropWs s).reverse).reverse) ?_
      have : dropWs s = a :: (t ++ _) := h2
      exact this
    show List.dropWhile Char.isWhitespace (a :: t) = a :: t
    rw [List.dropWhile_cons, if_neg (by simp [hpa])]

theorem trimL_idem (s : List Char) : trimL (trimL s) = trimL s := by
  show ((dropWs (trimL s)).reverse.dropWhile Char.isWhitespace).reverse = trimL s
  rw [dropWs_trimL]
  have hrev : (trimL s).reverse
      = List.dropWhile Char.isWhitespace (dropWs s).reverse := by
    simp [trimL]
  rw [hrev, dropWhile_twice, ← hrev, List.reverse_reverse]

/-- Every sentence emitted by `split_into_sentences_go` is a trimmed
string. -/
theorem split_sent_go_trimmed (l : List Char) :
    ∀ (cur s : List Char), s ∈ split_into_sentences_go cur l → ∃ y, s = trimL y := by
  induction l with
  | nil =>
    intro cur s hs
    by_cases h : trimL cur = []
    · simp [split_into_sentences_go, h] at hs
    · simp [split_into_sentences_go, h] at hs
      exact ⟨cur, hs⟩
  | cons c rest ih =>
    intro cur s hs
    simp only [split_into_sentences_go] at hs
    split at hs
    · split at hs
      · rcases List.mem_cons.mp hs with rfl | hs'
        · exact ⟨cur ++ [c], rfl⟩
        · exact ih [] s hs'
      · exact ih _ s hs
    · exact ih _ s hs

theorem split_sent_trim_fixed (p : List Char) :
    ∀ s ∈ split_into_sentences p, trimL s = s := by
  intro s hs
  obtain ⟨y, rfl⟩ := split_sent_go_trimmed p [] s hs
  exact trimL_idem y

/-- The greedy-packing invariant: starting from a current chunk that is
empty, at most 299 characters long, or a single trimmed sentence of the
pool `S`, every emitted chunk content is at most 299 characters long or a
single trimmed sentence of `S`. -/
theorem sentencePack_spec (S : List (List Char)) :
    ∀ (sents : List (List Char)) (cur : List Char),
      (∀ s ∈ sents, s ∈ S) →
      (cur = [] ∨ cur.length ≤ 299 ∨ ∃ s ∈ S, cur = trimL s) →
      ∀ c ∈ sentencePack sents cur,
        c.length ≤ 299 ∨ ∃ s ∈ S, c = trimL s := by
  intro sents
  induction sents with
  | nil =>
    intro cur _ hcur c hc
    by_cases h : trimL cur = []
    · simp [sentencePack, h] at hc
    · simp [sentencePack, h] at hc
      subst hc
      rcases hcur with h0 | h1 | h2
      · exact absurd (h0 ▸ trimL_nil) h
      · exact Or.inl h1
      · exact Or.inr h2
  | cons s rest ih =>
    intro cur hs hcur c hc
    have hsS : s ∈ S := hs s (List.mem_cons_self s rest)
    have hrest : ∀ x ∈ rest, x ∈ S := fun x hx => hs x (List.mem_cons_of_mem s hx)
    simp only [sentencePack] at hc
    split at hc
    · exact ih cur hrest hcur c hc
    · split at hc
      · next h1 =>
        rcases List.mem_cons.mp hc with rfl | hc'
        · rcases hcur with h2 | h2 | h2
          · exact absurd h2 h1.2
          · exact Or.inl h2
          · exact Or.inr h2
        · exact ih (trimL s) hrest (Or.inr (Or.inr ⟨s, hsS, rfl⟩)) c hc'
      · next h1 =>
        by_cases h2 : cur = []
        · rw [if_pos h2] at hc
          exact ih (trimL s) hrest (Or.inr (Or.inr ⟨s, hsS, rfl⟩)) c hc
        · rw [if_neg h2] at hc
          have hle : cur.length + (trimL s).length + 2 ≤ 300 := by
            by_contra hgt
            exact h1 ⟨Nat.lt_of_not_le (fun hx => hgt (by omega)), h2⟩
          have hlen : (cur ++ ' ' :: trimL s).length ≤ 299 := by
            rw [List.length_append, List.length_cons]
            omega
          exact ih _ hrest (Or.inr (Or.inl hlen)) c hc

/-- Per-paragraph chunk contents: a whole short-enough trimmed paragraph,
a packed chunk of at most 299 characters, or a single trimmed sentence. -/
theorem paraContents_spec (p : List Char) :
    ∀ c ∈ paraContents p,
      (c = trimL p ∧ c.length ≤ 400)
      ∨ c.length ≤ 299
      ∨ ∃ s ∈ split_into_sentences (trimL p), c = trimL s := by
  intro c hc
  simp only [paraContents] at hc
  split at hc
  · simp at hc
  · split at hc
    · next h2 =>
      simp at hc
      subst hc
      exact Or.inl ⟨rfl, h2⟩
    · have := sentencePack_spec (split_into_sentences (trimL p))
        (split_into_sentences (trimL p)) [] (fun _ hx => hx) (Or.inl rfl) c hc
      rcases this with h | h
      · exact Or.inr (Or.inl h)
      · exact Or.inr (Or.inr h)

/-- C3 (amended): every chunk emitted by `split_text_into_chunks` is a
whole trimmed paragraph of at most 400 characters, or a sentence-packed
chunk of at most 300 characters, or one whole sentence (emitted intact,
never truncated) — the only case that may exceed the target size.
(`index_text_document` additionally passes any text of at most 1000
characters through as one unsplit chunk; see the counterexample.) -/
theorem split_chunks_bounded (md5h : List Char → String) (text src : List Char)
    (meta : List (String × String)) :
    ∀ ch ∈ split_text_into_chunks md5h text src meta,
      (∃ p ∈ splitParas text, ch.content = trimL p ∧ ch.content.length ≤ 400)
      ∨ ch.content.length ≤ 300
      ∨ ∃ p ∈ splitParas text, ∃ s ∈ split_into_sentences (trimL p),
          ch.content = s := by
  intro ch hch
  obtain ⟨⟨i, c⟩, hic, rfl⟩ := List.mem_map.mp hch
  have hc : c ∈ ((splitParas text).map paraContents).flatten := by
    rw [List.enum_eq_zip_range] at hic
    exact (List.of_mem_zip hic).2
  obtain ⟨li, hli, hcli⟩ := List.mem_flatten.mp hc
  obtain ⟨p, hp, rfl⟩ := List.mem_map.mp hli
  have hcontent : (create_chunk md5h c src meta i).content = trimL c := rfl
  rcases paraContents_spec p c hcli with ⟨rfl, hle⟩ | hle | ⟨s, hsmem, rfl⟩
  · refine Or.inl ⟨p, hp, ?_, ?_⟩
    · rw [hcontent, trimL_idem]
    · rw [hcontent, trimL_idem]
      exact hle
  · refine Or.inr (Or.inl ?_)
    rw [hcontent]
    exact le_trans (trimL_length_le c) (le_trans hle (by omega))
  · refine Or.inr (Or.inr ⟨p, hp, s, hsmem, ?_⟩)
    rw [hcontent, trimL_idem]
    exact split_sent_trim_fixed (trimL p) s hsmem

/-- Witness for C3 at a concrete input: a single 60-character paragraph is
emitted as one whole chunk of at most 400 characters. -/
theorem split_chunks_bounded_witness :
    (∃ p ∈ splitParas midParagraph,
        (create_chunk md5h0 midParagraph (String.toList "doc1") [] 0).content
            = trimL p
          ∧ (create_chunk md5h0 midParagraph (String.toList "doc1") [] 0).content.length
            ≤ 400)
    ∨ (create_chunk md5h0 midParagraph (String.toList "doc1") [] 0).content.length
        ≤ 300
    ∨ ∃ p ∈ splitParas midParagraph,
        ∃ s ∈ split_into_sentences (trimL p),
          (create_chunk md5h0 midParagraph (String.toList "doc1") [] 0).content
            = s :=
  split_chunks_bounded md5h0 midParagraph (String.toList "doc1") []
    (create_chunk md5h0 midParagraph (String.toList "doc1") [] 0) (by decide)

set_option maxRecDepth 100000 in
/-- Counterexample for C3 as stated: `index_text_document` passes the
489-character, seven-sentence text `sevenSentences` through as one single
chunk, whose content exceeds the 400-character target and is not a single
over-long sentence (each of its seven sentences is at most 100 characters
long). -/
theorem index_text_whole_chunk_exceeds_bound :
    (index_text_chunks md5h0 sevenSentences (String.toList "doc1") []).map
        (fun ch => ch.content) = [sevenSentences]
    ∧ 400 < sevenSentences.length
    ∧ sevenSentences.length ≤ 1000
    ∧ (split_into_sentences sevenSentences).length = 7
    ∧ ∀ s ∈ split_into_sentences sevenSentences, s.length ≤ 100 := by
  refine ⟨by decide, by decide, by decide, by decide, by decide⟩

theorem split_chunks_ids_nodup (md5h : List Char → String) (text src : List Char)
    (meta : List (String × String)) :
    ((split_text_into_chunks md5h text src meta).map (fun c => c.id)).Nodup := by
  unfold split_text_into_chunks
  rw [List.map_map]
  have heq : ((fun c : DocumentChunkL => c.id)
        ∘ fun ic : ℕ × List Char => create_chunk md5h ic.2 src meta ic.1)
      = (fun i => ChunkId.indexed (md5h src) i) ∘ Prod.fst := rfl
  rw [heq, ← List.map_map, List.enum_map_fst]
  refine List.Nodup.map ?_ (List.nodup_range _)
  intro a b hab
  exact (ChunkId.indexed.inj hab).2

theorem index_text_chunks_ids_nodup (md5h : List Char → String)
    (content src : List Char) (meta : List (String × String)) :
    ((index_text_chunks md5h content src meta).map (fun c => c.id)).Nodup := by
  unfold index_text_chunks
  split
  · exact split_chunks_ids_nodup md5h content src meta
  · simp

/-- Folding `index_document` over chunks with pairwise-distinct ids
removes exactly the stored documents carrying one of those ids and appends
the embedded chunks. -/
theorem indexBatch_eq (cs : List DocumentChunkL) :
    ∀ store : List DocumentChunkL,
      (cs.map (fun c => c.id)).Nodup →
      cs.foldl index_document store
        = store.filter (fun d => decide (d.id ∉ cs.map (fun c => c.id)))
          ++ cs.map (fun c => { c with embedding := generateAccum c.content }) := by
  induction cs with
  | nil => intro store _; simp
  | cons c cs ih =>
    intro store hnd
    rw [List.map_cons, List.nodup_cons] at hnd
    obtain ⟨hcnotin, hcs⟩ := hnd
    show cs.foldl index_document (index_document store c) = _
    rw [ih (index_document store c) hcs]
    unfold index_document
    rw [List.filter_append]
    have h1 : List.filter (fun d => decide (d.id ∉ cs.map (fun c => c.id)))
        [{ c with embedding := generateAccum c.content }]
        = [{ c with embedding := generateAccum c.content }] := by
      have hp : decide ((({ c with embedding := generateAccum c.content } :
          DocumentChunkL)).id ∉ cs.map (fun c => c.id)) = true := by
        simp only [decide_eq_true_eq]
        exact hcnotin
      rw [List.filter_cons, List.filter_nil, if_pos hp]
    have h2 : List.filter (fun d => decide (d.id ∉ cs.map (fun c => c.id)))
        (store.filter (fun d => decide (d.id ≠ c.id)))
        = store.filter (fun d => decide (d.id ∉ (c :: cs).map (fun c => c.id))) := by
      rw [List.filter_filter]
      refine List.filter_congr ?_
      intro x _
      by_cases hx1 : x.id = c.id <;> by_cases hx2 : x.id ∈ cs.map (fun c => c.id) <;>
        simp [hx1, hx2]
    rw [h1, h2, List.map_cons, List.append_assoc]
    rfl

/-- C8: re-indexing the same text under the same source is a no-op on the
store — the second pass produces chunks with the same ids as the first
(the chunk list is a pure function of text, source and metadata), each of
which overwrites the document stored by the first pass, so the store and
in particular its document count are unchanged. -/
theorem index_text_document_idempotent (md5h : List Char → String)
    (store : List DocumentChunkL) (content src : List Char)
    (meta : List (String × String)) :
    index_text_document md5h (index_text_document md5h store content src meta)
        content src meta
      = index_text_document md5h store content src meta
    ∧ (index_text_document md5h (index_text_document md5h store content src meta)
        content src meta).length
      = (index_text_document md5h store content src meta).length := by
  have hnd := index_text_chunks_ids_nodup md5h content src meta
  have hmain : index_text_document md5h
      (index_text_document md5h store content src meta) content src meta
      = index_text_document md5h store content src meta := by
    unfold index_text_document
    rw [indexBatch_eq _ store hnd, indexBatch_eq _ _ hnd, List.filter_append]
    have hA : (store.filter (fun d =>
          decide (d.id ∉ (index_text_chunks md5h content src meta).map
            (fun c => c.id)))).filter (fun d =>
          decide (d.id ∉ (index_text_chunks md5h content src meta).map
            (fun c => c.id)))
        = store.filter (fun d =>
            decide (d.id ∉ (index_text_chunks md5h content src meta).map
              (fun c => c.id))) := by
      rw [List.filter_filter]
      exact List.filter_congr (fun x _ => Bool.and_self _)
    have hB : ((index_text_chunks md5h content src meta).map
          (fun c => { c with embedding := generateAccum c.content })).filter
            (fun d => decide (d.id ∉ (index_text_chunks md5h content src meta).map
              (fun c => c.id)))
        = [] := by
      rw [List.filter_eq_nil_iff]
      intro a ha
      obtain ⟨c, hc, rfl⟩ := List.mem_map.mp ha
      have : c.id ∈ (index_text_chunks md5h content src meta).map (fun c => c.id) :=
        List.mem_map.mpr ⟨c, hc, rfl⟩
      simp [this]
    rw [hA, hB, List.append_nil]
  exact ⟨hmain, congrArg List.length hmain⟩

end AnyCli
